import Mathlib

/-!
Shallow embedding of the `expand_str` library (src/src/lib.rs).

A Rust `&str` is modelled as its list of Unicode scalar values (`List Char`);
the byte offsets produced by `CharIndices` are modelled explicitly through
`Char.utf8Size`, and byte-offset slicing of the source string is modelled by
`byteDrop`/`byteTake`.  The iterator `ExpandableStringSplit` is modelled as an
explicit cursor state together with a `next` step function; `scanList` is the
fused transcription of `next` driven to exhaustion (the two are related by
`collectItems_eq_scanAll` below).
-/

namespace ExpandStr

/-- Total UTF-8 byte length of a character list (models `str::len`). -/
def utf8Len : List Char → Nat
  | [] => 0
  | c :: cs => c.utf8Size + utf8Len cs

/-- Drop the characters occupying the first `k` bytes (models `&s[k..]`).
At offsets that are not character boundaries the Rust slice would panic;
the scanner is proved to use boundary offsets only (claim C9). -/
def byteDrop : Nat → List Char → List Char
  | _, [] => []
  | k, c :: cs => if k = 0 then c :: cs else byteDrop (k - c.utf8Size) cs

/-- Take the characters occupying the first `k` bytes (models `&s[..k]`). -/
def byteTake : Nat → List Char → List Char
  | _, [] => []
  | k, c :: cs => if k = 0 then [] else c :: byteTake (k - c.utf8Size) cs

/-- Models the Rust byte-offset slice `&s[a..b]`. -/
def byteSlice (a b : Nat) (cs : List Char) : List Char :=
  byteTake (b - a) (byteDrop a cs)

/-- Models `str::char_indices` starting from byte offset `n`. -/
def charIndicesAux : Nat → List Char → List (Nat × Char)
  | _, [] => []
  | n, c :: cs => (n, c) :: charIndicesAux (n + c.utf8Size) cs

/-- Models `str::char_indices`: every character paired with its byte offset. -/
def charIndices (cs : List Char) : List (Nat × Char) :=
  charIndicesAux 0 cs

/-- Models `enum ExpandableStrEntry<'a>`: a borrowed segment of the source. -/
inductive ExpandableStrEntry where
  | Substr (s : List Char)
  | Var (s : List Char)
  deriving DecidableEq

/-- Models `enum ExpandableStrSplitError`. -/
inductive ExpandableStrSplitError where
  | InvalidFormat
  deriving DecidableEq

deriving instance DecidableEq for Except

/-- Models `type ExpandableStrSplitResult<'a>`. -/
abbrev ExpandableStrSplitResult := Except ExpandableStrSplitError ExpandableStrEntry

/-- Models `struct ExpandableStringSplit<'a>`; the `chars_iter` field is
modelled by the list of not-yet-consumed `char_indices` pairs. -/
structure ExpandableStringSplit where
  src : List Char
  rest : List (Nat × Char)
  token_start : Nat
  reading_var : Bool
  done : Bool
  deriving DecidableEq

/-- Models `split_expandable_string`. -/
def split_expandable_string (s : String) : ExpandableStringSplit :=
  { src := s.data, rest := charIndices s.data, token_start := 0, reading_var := false,
    done := false }

/-- The `while let` loop body of `ExpandableStringSplit::next`, starting from
cursor position `rest`, current `token_start` and `reading_var`: returns the
item produced (if any) together with the updated iterator state. -/
def scanStep (src : List Char) : List (Nat × Char) → Nat → Bool →
    Option ExpandableStrSplitResult × ExpandableStringSplit
  | [], ts, rv =>
    if rv then
      (some (.error .InvalidFormat), ⟨src, [], ts, rv, true⟩)
    else
      let token_slice := byteDrop ts src
      if token_slice.isEmpty then (none, ⟨src, [], ts, rv, true⟩)
      else (some (.ok (.Substr token_slice)), ⟨src, [], utf8Len src, rv, true⟩)
  | (n, c) :: rest, ts, rv =>
    if c = '%' then
      if n > 0 then
        let token_slice := byteSlice ts n src
        if token_slice.isEmpty then scanStep src rest (n + 1) (!rv)
        else (some (.ok (if rv then .Var token_slice else .Substr token_slice)),
              ⟨src, rest, n + 1, !rv, false⟩)
      else scanStep src rest 1 (!rv)
    else scanStep src rest ts rv

/-- Models `<ExpandableStringSplit as Iterator>::next` (state passed explicitly). -/
def next (st : ExpandableStringSplit) :
    Option ExpandableStrSplitResult × ExpandableStringSplit :=
  if st.done then (none, st)
  else scanStep st.src st.rest st.token_start st.reading_var

/-- The result of the `(k+1)`-th consecutive pull on the iterator. -/
def pullN : ExpandableStringSplit → Nat → Option ExpandableStrSplitResult × ExpandableStringSplit
  | st, 0 => next st
  | st, k + 1 => pullN (next st).2 k

/-- Collect the items produced by repeatedly calling `next`, with enough fuel. -/
def collectItems : ExpandableStringSplit → Nat → List ExpandableStrSplitResult
  | _, 0 => []
  | st, fuel + 1 =>
    match next st with
    | (none, _) => []
    | (some item, st') => item :: collectItems st' fuel

/-- The full item sequence of the scanner: the fused transcription of the
`next` loop driven to exhaustion (see `collectItems_eq_scanAll`). -/
def scanList (src : List Char) : List (Nat × Char) → Nat → Bool → List ExpandableStrSplitResult
  | [], ts, rv =>
    if rv then [.error .InvalidFormat]
    else
      let token_slice := byteDrop ts src
      if token_slice.isEmpty then [] else [.ok (.Substr token_slice)]
  | (n, c) :: rest, ts, rv =>
    if c = '%' then
      if n > 0 then
        let token_slice := byteSlice ts n src
        (if token_slice.isEmpty then []
         else [.ok (if rv then .Var token_slice else .Substr token_slice)]) ++
          scanList src rest (n + 1) (!rv)
      else scanList src rest 1 (!rv)
    else scanList src rest ts rv

/-- All items emitted when scanning `s` (what collecting the iterator yields). -/
def scanAll (s : String) : List ExpandableStrSplitResult :=
  scanList s.data (charIndices s.data) 0 false

/-- Models `enum ExpandStringError<'a>`. -/
inductive ExpandStringError where
  | InvalidFormat
  | MissingVariable (name : List Char)
  deriving DecidableEq

/-- Models `impl From<ExpandableStrSplitError> for ExpandStringError`. -/
def ExpandStringError.ofSplitError : ExpandableStrSplitError → ExpandStringError
  | .InvalidFormat => .InvalidFormat

/-- The `for entry in split_expandable_string(s)` loop of
`expand_string_with_values`, with the accumulated output passed explicitly. -/
def expandLoop (get_value : List Char → Option (List Char)) :
    List ExpandableStrSplitResult → List Char → Except ExpandStringError (List Char)
  | [], acc => .ok acc
  | .error e :: _, _ => .error (ExpandStringError.ofSplitError e)
  | .ok (.Substr t) :: rest, acc => expandLoop get_value rest (acc ++ t)
  | .ok (.Var nm) :: rest, acc =>
    match get_value nm with
    | none => .error (.MissingVariable nm)
    | some v => expandLoop get_value rest (acc ++ v)

/-- Models `expand_string_with_values` (the value type `S : AsRef<str>` is
modelled by the value's character list). -/
def expand_string_with_values (s : String) (get_value : List Char → Option (List Char)) :
    Except ExpandStringError (List Char) :=
  expandLoop get_value (scanAll s) []

/-! ### Specification-side helper functions -/

/-- Functional model of the scanner: `acc` is the pending token (the
characters between `token_start` and the cursor), `rv` is `reading_var`.
Proved equal to `scanList` on the reachable states (`scanList_eq_tokens`). -/
def tokens : Bool → List Char → List Char → List ExpandableStrSplitResult
  | rv, acc, [] =>
    if rv then [.error .InvalidFormat]
    else if acc.isEmpty then [] else [.ok (.Substr acc)]
  | rv, acc, c :: cs =>
    if c = '%' then
      (if acc.isEmpty then [] else [.ok (if rv then .Var acc else .Substr acc)]) ++
        tokens (!rv) [] cs
    else tokens rv (acc ++ [c]) cs

/-- `true` iff no item of the list is an error. -/
def allOk (items : List ExpandableStrSplitResult) : Bool :=
  items.all fun it =>
    match it with
    | .ok _ => true
    | .error _ => false

/-- Number of `%` delimiter characters in the input. -/
def delimCount : List Char → Nat
  | [] => 0
  | c :: cs => (if c = '%' then 1 else 0) + delimCount cs

/-- The underlying source text of an emitted item: a variable is wrapped back
in its `%` markers, a literal is taken verbatim. -/
def entryText : ExpandableStrSplitResult → List Char
  | .ok (.Substr t) => t
  | .ok (.Var v) => '%' :: (v ++ ['%'])
  | .error _ => []

/-- Concatenation of the underlying text of all emitted items. -/
def reconstruct (items : List ExpandableStrSplitResult) : List Char :=
  (items.map entryText).flatten

/-- Well-formedness used for the round-trip law: an even number of `%`
delimiters and no empty variable reference.  `rv` is the reading-var mode and
`tk` records whether the pending token is nonempty. -/
def okScan : Bool → Bool → List Char → Bool
  | rv, _, [] => !rv
  | rv, tk, c :: cs =>
    if c = '%' then (if rv && !tk then false else okScan (!rv) false cs)
    else okScan rv true cs

/-- `true` iff the lookup resolves every emitted variable. -/
def varsResolved (get_value : List Char → Option (List Char))
    (items : List ExpandableStrSplitResult) : Bool :=
  items.all fun it =>
    match it with
    | .ok (.Var v) => (get_value v).isSome
    | _ => true

/-- The expansion of one emitted item: a literal verbatim, a variable by its
looked-up value. -/
def segOut (get_value : List Char → Option (List Char)) :
    ExpandableStrSplitResult → List Char
  | .ok (.Substr t) => t
  | .ok (.Var v) => (get_value v).getD []
  | .error _ => []

/-- The name of the first emitted variable (in order) that the lookup fails
to resolve, if any. -/
def firstMissingVar (get_value : List Char → Option (List Char)) :
    List ExpandableStrSplitResult → Option (List Char)
  | [] => none
  | .ok (.Var v) :: rest =>
    if (get_value v).isSome then firstMissingVar get_value rest else some v
  | _ :: rest => firstMissingVar get_value rest

/-- `true` iff an error item can occur only as the last item of the list. -/
def errorsTailOnly : List ExpandableStrSplitResult → Bool
  | [] => true
  | .error _ :: rest => rest.isEmpty
  | .ok _ :: rest => errorsTailOnly rest

/-- The byte-offset pairs `(start, stop)` at which the scan of `src` slices
the source; mirrors the slices taken by `scanList`/`scanStep`. -/
def sliceOffsets (src : List Char) : List (Nat × Char) → Nat → Bool → List (Nat × Nat)
  | [], ts, rv => if rv then [] else [(ts, utf8Len src)]
  | (n, c) :: rest, ts, rv =>
    if c = '%' then
      if n > 0 then (ts, n) :: sliceOffsets src rest (n + 1) (!rv)
      else sliceOffsets src rest 1 (!rv)
    else sliceOffsets src rest ts rv

/-- `k` is a UTF-8 character boundary of `cs`: the byte length of a prefix. -/
def IsCharBoundary (cs : List Char) (k : Nat) : Prop :=
  ∃ xs ys, cs = xs ++ ys ∧ utf8Len xs = k

/-- `true` iff an emitted segment is nonempty and contains no `%` delimiter
(errors are ignored); used to state the segment invariants. -/
def segNonEmptyNoDelim : ExpandableStrSplitResult → Bool
  | .ok (.Substr t) => decide (t ≠ [] ∧ '%' ∉ t)
  | .ok (.Var v) => decide (v ≠ [] ∧ '%' ∉ v)
  | .error _ => true

/-! ### Byte-offset and index bookkeeping lemmas -/

theorem utf8Len_append (xs ys : List Char) :
    utf8Len (xs ++ ys) = utf8Len xs + utf8Len ys := by
  induction xs with
  | nil => simp [utf8Len]
  | cons c cs ih => simp [utf8Len, ih, Nat.add_assoc]

theorem utf8Len_eq_zero {xs : List Char} : utf8Len xs = 0 ↔ xs = [] := by
  cases xs with
  | nil => simp [utf8Len]
  | cons c cs =>
    have := c.utf8Size_pos
    simp only [utf8Len]
    constructor
    · intro h; omega
    · intro h; exact absurd h (List.cons_ne_nil c cs)

theorem percent_utf8Size : ('%' : Char).utf8Size = 1 := by decide

theorem byteDrop_utf8Len_append (xs ys : List Char) :
    byteDrop (utf8Len xs) (xs ++ ys) = ys := by
  induction xs with
  | nil =>
    cases ys with
    | nil => simp [byteDrop, utf8Len]
    | cons c cs => simp [byteDrop, utf8Len]
  | cons c cs ih =>
    have hpos := c.utf8Size_pos
    have hne : ¬(c.utf8Size + utf8Len cs = 0) := by omega
    have harith : c.utf8Size + utf8Len cs - c.utf8Size = utf8Len cs := by omega
    simp only [utf8Len, List.cons_append, byteDrop, hne, if_false, harith]
    exact ih

theorem byteTake_utf8Len_append (xs ys : List Char) :
    byteTake (utf8Len xs) (xs ++ ys) = xs := by
  induction xs with
  | nil =>
    cases ys with
    | nil => simp [byteTake, utf8Len]
    | cons c cs => simp [byteTake, utf8Len]
  | cons c cs ih =>
    have hpos := c.utf8Size_pos
    have hne : ¬(c.utf8Size + utf8Len cs = 0) := by omega
    have harith : c.utf8Size + utf8Len cs - c.utf8Size = utf8Len cs := by omega
    simp only [utf8Len, List.cons_append, byteTake, hne, if_false, harith]
    simp [ih]

theorem charIndicesAux_length (n : Nat) (cs : List Char) :
    (charIndicesAux n cs).length = cs.length := by
  induction cs generalizing n with
  | nil => simp [charIndicesAux]
  | cons c cs ih => simp [charIndicesAux, ih]

/-! ### The scanner computes `tokens` -/

theorem scanList_eq_tokens :
    ∀ (rest pre2 acc : List Char) (rv : Bool),
      scanList (pre2 ++ (acc ++ rest)) (charIndicesAux (utf8Len pre2 + utf8Len acc) rest)
          (utf8Len pre2) rv
        = tokens rv acc rest := by
  intro rest
  induction rest with
  | nil =>
    intro pre2 acc rv
    cases rv with
    | false =>
      simp only [charIndicesAux, scanList, tokens, List.append_nil, if_false, Bool.false_eq_true,
        byteDrop_utf8Len_append]
    | true =>
      simp [charIndicesAux, scanList, tokens]
  | cons c cs ih =>
    intro pre2 acc rv
    simp only [charIndicesAux]
    by_cases hc : c = '%'
    · subst hc
      by_cases hn : utf8Len pre2 + utf8Len acc > 0
      · have hslice : byteSlice (utf8Len pre2) (utf8Len pre2 + utf8Len acc)
            (pre2 ++ (acc ++ ('%' :: cs))) = acc := by
          rw [byteSlice, byteDrop_utf8Len_append, Nat.add_sub_cancel_left,
            byteTake_utf8Len_append]
        have hind := ih (pre2 ++ (acc ++ ['%'])) [] (!rv)
        have hup : utf8Len (pre2 ++ (acc ++ ['%'])) = utf8Len pre2 + utf8Len acc + 1 := by
          simp only [utf8Len_append, utf8Len, percent_utf8Size]
          omega
        rw [hup] at hind
        simp only [List.append_assoc, List.singleton_append, List.nil_append,
          List.append_nil, utf8Len, Nat.add_zero] at hind
        simp only [scanList, tokens, if_pos rfl, hn, if_true, hslice, percent_utf8Size]
        rw [hind]
      · have h0 : utf8Len pre2 = 0 ∧ utf8Len acc = 0 := by omega
        have hp : pre2 = [] := utf8Len_eq_zero.mp h0.1
        have ha : acc = [] := utf8Len_eq_zero.mp h0.2
        subst hp; subst ha
        have hind := ih ['%'] [] (!rv)
        simp only [List.singleton_append, List.nil_append, utf8Len, percent_utf8Size,
          Nat.add_zero] at hind
        simp only [scanList, tokens, List.nil_append, utf8Len, Nat.add_zero,
          percent_utf8Size] at hind ⊢
        simpa using hind
    · have hind := ih pre2 (acc ++ [c]) rv
      have hus : utf8Len (acc ++ [c]) = utf8Len acc + c.utf8Size := by
        simp [utf8Len_append, utf8Len]
      rw [hus] at hind
      simp only [List.append_assoc, List.singleton_append] at hind
      simp only [scanList, tokens, hc, if_false, Nat.add_assoc]
      exact hind

theorem scanAll_eq_tokens (s : String) : scanAll s = tokens false [] s.data := by
  have h := scanList_eq_tokens s.data [] [] false
  simpa [scanAll, charIndices, utf8Len] using h

/-! ### Driving `next` to exhaustion yields `scanList` -/

theorem collectItems_done (st : ExpandableStringSplit) (fuel : Nat) (h : st.done = true) :
    collectItems st fuel = [] := by
  cases fuel with
  | zero => rfl
  | succ fuel => simp [collectItems, next, h]

theorem next_mk_false (src : List Char) (rest : List (Nat × Char)) (ts : Nat) (rv : Bool) :
    next ⟨src, rest, ts, rv, false⟩ = scanStep src rest ts rv := rfl

theorem collectItems_succ (st : ExpandableStringSplit) (fuel : Nat) :
    collectItems st (fuel + 1) =
      match next st with
      | (none, _) => []
      | (some item, st') => item :: collectItems st' fuel := rfl

theorem collectItems_congr_step {src : List Char} {rest rest2 : List (Nat × Char)}
    {ts ts2 : Nat} {rv rv2 : Bool}
    (h : scanStep src rest ts rv = scanStep src rest2 ts2 rv2) (fuel : Nat) :
    collectItems ⟨src, rest, ts, rv, false⟩ (fuel + 1)
      = collectItems ⟨src, rest2, ts2, rv2, false⟩ (fuel + 1) := by
  rw [collectItems_succ, collectItems_succ, next_mk_false, next_mk_false, h]

theorem collectItems_eq_scanList :
    ∀ (rest : List (Nat × Char)) (src : List Char) (ts : Nat) (rv : Bool) (fuel : Nat),
      rest.length ≤ fuel →
      collectItems ⟨src, rest, ts, rv, false⟩ (fuel + 1) = scanList src rest ts rv := by
  intro rest
  induction rest with
  | nil =>
    intro src ts rv fuel _
    cases rv with
    | true =>
      rw [collectItems_succ, next_mk_false,
        show scanStep src [] ts true
            = (some (.error .InvalidFormat), ⟨src, [], ts, true, true⟩) from by
          simp [scanStep]]
      dsimp only
      rw [collectItems_done ⟨src, [], ts, true, true⟩ fuel rfl]
      simp [scanList]
    | false =>
      by_cases h : (byteDrop ts src).isEmpty
      · rw [collectItems_succ, next_mk_false,
          show scanStep src [] ts false = (none, ⟨src, [], ts, false, true⟩) from by
            simp [scanStep, h]]
        dsimp only
        simp [scanList, h]
      · rw [collectItems_succ, next_mk_false,
          show scanStep src [] ts false
              = (some (.ok (.Substr (byteDrop ts src))), ⟨src, [], utf8Len src, false, true⟩)
            from by simp [scanStep, h]]
        dsimp only
        rw [collectItems_done ⟨src, [], utf8Len src, false, true⟩ fuel rfl]
        simp [scanList, h]
  | cons p rest' ih =>
    obtain ⟨n, c⟩ := p
    intro src ts rv fuel hfuel
    simp only [List.length_cons] at hfuel
    by_cases hc : c = '%'
    · subst hc
      by_cases hn : n > 0
      · by_cases he : (byteSlice ts n src).isEmpty
        · have hstep : scanStep src ((n, '%') :: rest') ts rv
              = scanStep src rest' (n + 1) (!rv) := by
            simp [scanStep, hn, he]
          rw [collectItems_congr_step hstep fuel, ih src (n + 1) (!rv) fuel (by omega)]
          simp [scanList, hn, he]
        · cases fuel with
          | zero => omega
          | succ fuel' =>
            have hstep : scanStep src ((n, '%') :: rest') ts rv
                = (some (.ok (if rv then .Var (byteSlice ts n src)
                              else .Substr (byteSlice ts n src))),
                   ⟨src, rest', n + 1, !rv, false⟩) := by
              simp [scanStep, hn, he]
            have hrec := ih src (n + 1) (!rv) fuel' (by omega)
            rw [collectItems_succ, next_mk_false, hstep]
            have hlist : scanList src ((n, '%') :: rest') ts rv
                = .ok (if rv then .Var (byteSlice ts n src) else .Substr (byteSlice ts n src))
                  :: scanList src rest' (n + 1) (!rv) := by
              simp [scanList, hn, he]
            dsimp only
            rw [hlist, hrec]
      · have hstep : scanStep src ((n, '%') :: rest') ts rv
            = scanStep src rest' 1 (!rv) := by
          simp [scanStep, hn]
        rw [collectItems_congr_step hstep fuel, ih src 1 (!rv) fuel (by omega)]
        simp [scanList, hn]
    · have hstep : scanStep src ((n, c) :: rest') ts rv = scanStep src rest' ts rv := by
        simp [scanStep, hc]
      rw [collectItems_congr_step hstep fuel, ih src ts rv fuel (by omega)]
      simp [scanList, hc]

/-- Collecting the items produced by the iterator `next` (with fuel exceeding
the number of characters) is exactly `scanAll`: the fused scan sequence is
faithful to pulling the iterator to exhaustion. -/
theorem collectItems_eq_scanAll (s : String) :
    collectItems (split_expandable_string s) (s.data.length + 1) = scanAll s := by
  have hlen : (charIndices s.data).length ≤ s.data.length := by
    simp [charIndices, charIndicesAux_length]
  have h := collectItems_eq_scanList (charIndices s.data) s.data 0 false s.data.length hlen
  simpa [split_expandable_string, scanAll] using h

/-! ### Properties of the emitted sequence, proved on `tokens` -/

theorem tokens_all_props :
    ∀ (rest acc : List Char) (rv : Bool), '%' ∉ acc →
      (tokens rv acc rest).all segNonEmptyNoDelim = true := by
  intro rest
  induction rest with
  | nil =>
    intro acc rv hacc
    cases rv with
    | true => simp [tokens, segNonEmptyNoDelim]
    | false =>
      cases acc with
      | nil => simp [tokens]
      | cons a as => simpa [tokens, segNonEmptyNoDelim] using hacc
  | cons c cs ih =>
    intro acc rv hacc
    by_cases hc : c = '%'
    · simp only [tokens]
      rw [if_pos hc, List.all_append]
      have hrec := ih [] rv.not (by simp)
      rw [hrec, Bool.and_true]
      cases acc with
      | nil => simp
      | cons a as =>
        cases rv with
        | true => simpa [segNonEmptyNoDelim] using hacc
        | false => simpa [segNonEmptyNoDelim] using hacc
    · simp only [tokens]
      rw [if_neg hc]
      refine ih (acc ++ [c]) rv ?_
      simp only [List.mem_append, List.mem_singleton]
      rintro (h | h)
      · exact hacc h
      · exact hc h.symm

theorem allOk_append (xs ys : List ExpandableStrSplitResult) :
    allOk (xs ++ ys) = (allOk xs && allOk ys) := by
  simp [allOk, List.all_append]

theorem tokens_okScan :
    ∀ (rest acc : List Char) (rv : Bool), okScan rv (!acc.isEmpty) rest = true →
      allOk (tokens rv acc rest) = true ∧
      reconstruct (tokens rv acc rest) = (if rv then '%' :: acc else acc) ++ rest := by
  intro rest
  induction rest with
  | nil =>
    intro acc rv hok
    cases rv with
    | true => simp [okScan] at hok
    | false =>
      cases acc with
      | nil => simp [tokens, allOk, reconstruct]
      | cons a as => simp [tokens, allOk, reconstruct, entryText]
  | cons c cs ih =>
    intro acc rv hok
    by_cases hc : c = '%'
    · subst hc
      have hok2 : (rv = false ∨ ¬acc = []) ∧ okScan (!rv) false cs = true := by
        simpa [okScan] using hok
      have hrec := ih [] (!rv) (by simpa using hok2.2)
      simp only [tokens, if_true]
      constructor
      · rw [allOk_append, hrec.1, Bool.and_true]
        cases acc with
        | nil => simp [allOk]
        | cons a as => cases rv <;> simp [allOk]
      · simp only [reconstruct, List.map_append, List.flatten_append] at hrec ⊢
        rw [hrec.2]
        cases rv with
        | true =>
          cases acc with
          | nil =>
            rcases hok2.1 with h | h
            · simp at h
            · simp at h
          | cons a as => simp [entryText]
        | false =>
          cases acc with
          | nil => simp [entryText]
          | cons a as => simp [entryText]
    · simp only [okScan] at hok
      rw [if_neg hc] at hok
      have hne : (acc ++ [c]).isEmpty = false := by cases acc <;> simp
      have hrec := ih (acc ++ [c]) rv (by simp only [hne, Bool.not_false]; simpa using hok)
      simp only [tokens]
      rw [if_neg hc]
      refine ⟨hrec.1, ?_⟩
      rw [hrec.2]
      cases rv <;> simp

theorem tokens_even_allOk :
    ∀ (rest acc : List Char) (rv : Bool),
      (delimCount rest + (if rv then 1 else 0)) % 2 = 0 →
      allOk (tokens rv acc rest) = true := by
  intro rest
  induction rest with
  | nil =>
    intro acc rv hpar
    cases rv with
    | true => simp [delimCount] at hpar
    | false =>
      cases acc with
      | nil => simp [tokens, allOk]
      | cons a as => simp [tokens, allOk]
  | cons c cs ih =>
    intro acc rv hpar
    by_cases hc : c = '%'
    · simp only [delimCount] at hpar
      rw [if_pos hc] at hpar
      have hpar' : (delimCount cs + (if !rv then 1 else 0)) % 2 = 0 := by
        cases rv <;> simp_all <;> omega
      have hrec := ih [] (!rv) hpar'
      simp only [tokens]
      rw [if_pos hc, allOk_append, hrec, Bool.and_true]
      cases acc with
      | nil => simp [allOk]
      | cons a as => cases rv <;> simp [allOk]
    · simp only [delimCount] at hpar
      rw [if_neg hc] at hpar
      have hrec := ih (acc ++ [c]) rv (by simpa using hpar)
      simp only [tokens]
      rw [if_neg hc]
      exact hrec

theorem tokens_odd_error :
    ∀ (rest acc : List Char) (rv : Bool),
      (delimCount rest + (if rv then 1 else 0)) % 2 = 1 →
      ∃ pre, tokens rv acc rest = pre ++ [.error .InvalidFormat] ∧ allOk pre = true := by
  intro rest
  induction rest with
  | nil =>
    intro acc rv hpar
    cases rv with
    | true => exact ⟨[], by simp [tokens], rfl⟩
    | false => simp [delimCount] at hpar
  | cons c cs ih =>
    intro acc rv hpar
    by_cases hc : c = '%'
    · simp only [delimCount] at hpar
      rw [if_pos hc] at hpar
      have hpar' : (delimCount cs + (if !rv then 1 else 0)) % 2 = 1 := by
        cases rv <;> simp_all <;> omega
      obtain ⟨pre, hpre, hpreok⟩ := ih [] (!rv) hpar'
      refine ⟨(if acc.isEmpty then []
        else [.ok (if rv then .Var acc else .Substr acc)]) ++ pre, ?_, ?_⟩
      · simp only [tokens]
        rw [if_pos hc, hpre, List.append_assoc]
      · rw [allOk_append, hpreok, Bool.and_true]
        cases acc with
        | nil => simp [allOk]
        | cons a as => cases rv <;> simp [allOk]
    · simp only [delimCount] at hpar
      rw [if_neg hc] at hpar
      obtain ⟨pre, hpre, hpreok⟩ := ih (acc ++ [c]) rv (by simpa using hpar)
      refine ⟨pre, ?_, hpreok⟩
      simp only [tokens]
      rw [if_neg hc]
      exact hpre

theorem tokens_no_delim :
    ∀ (rest acc : List Char), '%' ∉ rest →
      tokens false acc rest
        = if acc ++ rest = [] then [] else [.ok (.Substr (acc ++ rest))] := by
  intro rest
  induction rest with
  | nil =>
    intro acc _
    cases acc with
    | nil => simp [tokens]
    | cons a as => simp [tokens]
  | cons c cs ih =>
    intro acc hrest
    have hc : ¬(c = '%') := by
      intro h
      exact hrest (by simp [h])
    have hrec := ih (acc ++ [c]) (by intro h; exact hrest (by simp; right; exact h))
    simp only [tokens]
    rw [if_neg hc, hrec]
    simp

theorem tokens_errorsTailOnly :
    ∀ (rest acc : List Char) (rv : Bool), errorsTailOnly (tokens rv acc rest) = true := by
  intro rest
  induction rest with
  | nil =>
    intro acc rv
    cases rv with
    | true => simp [tokens, errorsTailOnly]
    | false =>
      cases acc with
      | nil => simp [tokens, errorsTailOnly]
      | cons a as => simp [tokens, errorsTailOnly]
  | cons c cs ih =>
    intro acc rv
    by_cases hc : c = '%'
    · simp only [tokens]
      rw [if_pos hc]
      have hrec := ih [] (!rv)
      cases acc with
      | nil => simpa using hrec
      | cons a as => cases rv <;> simpa [errorsTailOnly] using hrec
    · simp only [tokens]
      rw [if_neg hc]
      exact ih (acc ++ [c]) rv

/-! ### Properties of the expansion loop -/

theorem expandLoop_ok_of_resolved (f : List Char → Option (List Char)) :
    ∀ (items : List ExpandableStrSplitResult) (acc : List Char),
      allOk items = true → varsResolved f items = true →
      expandLoop f items acc = .ok (acc ++ (items.map (segOut f)).flatten) := by
  intro items
  induction items with
  | nil => intro acc _ _; simp [expandLoop]
  | cons it rest ih =>
    intro acc hok hres
    cases it with
    | error e => simp [allOk] at hok
    | ok entry =>
      cases entry with
      | Substr t =>
        have h1 : allOk rest = true := by simpa [allOk] using hok
        have h2 : varsResolved f rest = true := by simpa [varsResolved] using hres
        simp [expandLoop, ih (acc ++ t) h1 h2, segOut, List.append_assoc]
      | Var v =>
        have h1 : allOk rest = true := by simpa [allOk] using hok
        have hres' : (f v).isSome = true ∧ varsResolved f rest = true := by
          simpa [varsResolved] using hres
        obtain ⟨val, hval⟩ := Option.isSome_iff_exists.mp hres'.1
        simp [expandLoop, hval, ih (acc ++ val) h1 hres'.2, segOut, List.append_assoc]

theorem expandLoop_missing (f : List Char → Option (List Char)) :
    ∀ (items : List ExpandableStrSplitResult) (acc v : List Char),
      errorsTailOnly items = true → firstMissingVar f items = some v →
      expandLoop f items acc = .error (.MissingVariable v) := by
  intro items
  induction items with
  | nil => intro acc v _ hf; simp [firstMissingVar] at hf
  | cons it rest ih =>
    intro acc v htail hf
    cases it with
    | error e =>
      have hrest : rest = [] := by simpa [errorsTailOnly, List.isEmpty_iff] using htail
      subst hrest
      simp [firstMissingVar] at hf
    | ok entry =>
      cases entry with
      | Substr t =>
        have htail' : errorsTailOnly rest = true := by simpa [errorsTailOnly] using htail
        have hf' : firstMissingVar f rest = some v := by simpa [firstMissingVar] using hf
        simp [expandLoop, ih (acc ++ t) v htail' hf']
      | Var w =>
        have htail' : errorsTailOnly rest = true := by simpa [errorsTailOnly] using htail
        by_cases hw : (f w).isSome = true
        · have hf' : firstMissingVar f rest = some v := by
            simpa [firstMissingVar, hw] using hf
          obtain ⟨val, hval⟩ := Option.isSome_iff_exists.mp hw
          simp [expandLoop, hval, ih (acc ++ val) v htail' hf']
        · have hweq : w = v := by simpa [firstMissingVar, hw] using hf
          have hnone : f w = none := Option.not_isSome_iff_eq_none.mp hw
          subst hweq
          simp [expandLoop, hnone]

theorem expandLoop_ok_inv (f : List Char → Option (List Char)) :
    ∀ (items : List ExpandableStrSplitResult) (acc out : List Char),
      expandLoop f items acc = .ok out →
      allOk items = true ∧ varsResolved f items = true ∧
        out = acc ++ (items.map (segOut f)).flatten := by
  intro items
  induction items with
  | nil =>
    intro acc out h
    simp [expandLoop] at h
    simp [allOk, varsResolved, h]
  | cons it rest ih =>
    intro acc out h
    cases it with
    | error e => simp [expandLoop] at h
    | ok entry =>
      cases entry with
      | Substr t =>
        simp only [expandLoop] at h
        obtain ⟨h1, h2, h3⟩ := ih (acc ++ t) out h
        refine ⟨by simpa [allOk] using h1, by simpa [varsResolved] using h2, ?_⟩
        simp [h3, segOut, List.append_assoc]
      | Var w =>
        simp only [expandLoop] at h
        cases hval : f w with
        | none => rw [hval] at h; simp at h
        | some val =>
          rw [hval] at h
          obtain ⟨h1, h2, h3⟩ := ih (acc ++ val) out h
          refine ⟨by simpa [allOk] using h1, ?_, ?_⟩
          · simp [varsResolved, hval] at h2 ⊢
            exact h2
          · simp [h3, segOut, hval, List.append_assoc]

/-! ### Termination behaviour of `next` -/

theorem scanStep_terminal_done :
    ∀ (rest : List (Nat × Char)) (src : List Char) (ts : Nat) (rv : Bool),
      ((scanStep src rest ts rv).1 = none ∨
        ∃ e, (scanStep src rest ts rv).1 = some (.error e)) →
      (scanStep src rest ts rv).2.done = true := by
  intro rest
  induction rest with
  | nil =>
    intro src ts rv _
    cases rv with
    | true => simp [scanStep]
    | false =>
      by_cases h : (byteDrop ts src).isEmpty
      · simp [scanStep, h]
      · simp [scanStep, h]
  | cons p rest' ih =>
    obtain ⟨n, c⟩ := p
    intro src ts rv h
    by_cases hc : c = '%'
    · subst hc
      by_cases hn : n > 0
      · by_cases he : (byteSlice ts n src).isEmpty
        · have hstep : scanStep src ((n, '%') :: rest') ts rv
              = scanStep src rest' (n + 1) (!rv) := by
            simp [scanStep, hn, he]
          rw [hstep] at h ⊢
          exact ih src (n + 1) (!rv) h
        · have hstep : scanStep src ((n, '%') :: rest') ts rv
              = (some (.ok (if rv then .Var (byteSlice ts n src)
                            else .Substr (byteSlice ts n src))),
                 ⟨src, rest', n + 1, !rv, false⟩) := by
            simp [scanStep, hn, he]
          rw [hstep] at h
          rcases h with h | ⟨e, h⟩
          · simp at h
          · simp at h
      · have hstep : scanStep src ((n, '%') :: rest') ts rv
            = scanStep src rest' 1 (!rv) := by
          simp [scanStep, hn]
        rw [hstep] at h ⊢
        exact ih src 1 (!rv) h
    · have hstep : scanStep src ((n, c) :: rest') ts rv = scanStep src rest' ts rv := by
        simp [scanStep, hc]
      rw [hstep] at h ⊢
      exact ih src ts rv h

theorem next_done (st : ExpandableStringSplit) (h : st.done = true) :
    next st = (none, st) := by
  simp [next, h]

theorem pullN_done :
    ∀ (k : Nat) (st : ExpandableStringSplit), st.done = true →
      (pullN st k).1 = none ∧ (pullN st k).2 = st := by
  intro k
  induction k with
  | zero =>
    intro st h
    simp [pullN, next_done st h]
  | succ k ih =>
    intro st h
    have hne := next_done st h
    simp only [pullN, hne]
    exact ih st h

theorem next_terminal (st : ExpandableStringSplit)
    (h : (next st).1 = none ∨ ∃ e, (next st).1 = some (.error e)) :
    (next st).2.done = true := by
  cases hd : st.done with
  | true => simp [next, hd]
  | false =>
    simp only [next, hd, Bool.false_eq_true, if_false] at h ⊢
    exact scanStep_terminal_done st.rest st.src st.token_start st.reading_var h

/-! ### Slice offsets are character boundaries -/

theorem sliceOffsets_boundary :
    ∀ (rest pre2 acc : List Char) (rv : Bool) (p : Nat × Nat),
      p ∈ sliceOffsets (pre2 ++ (acc ++ rest))
          (charIndicesAux (utf8Len pre2 + utf8Len acc) rest) (utf8Len pre2) rv →
      IsCharBoundary (pre2 ++ (acc ++ rest)) p.1 ∧
        IsCharBoundary (pre2 ++ (acc ++ rest)) p.2 ∧ p.1 ≤ p.2 := by
  intro rest
  induction rest with
  | nil =>
    intro pre2 acc rv p hp
    cases rv with
    | true => simp [charIndicesAux, sliceOffsets] at hp
    | false =>
      simp only [charIndicesAux, sliceOffsets, if_false, Bool.false_eq_true,
        List.mem_singleton] at hp
      subst hp
      refine ⟨⟨pre2, acc ++ [], rfl, rfl⟩, ⟨pre2 ++ (acc ++ []), [], by simp, rfl⟩, ?_⟩
      simp [utf8Len_append]
  | cons c cs ih =>
    intro pre2 acc rv p hp
    by_cases hc : c = '%'
    · subst hc
      simp only [charIndicesAux, sliceOffsets, if_true, percent_utf8Size] at hp
      by_cases hn : utf8Len pre2 + utf8Len acc > 0
      · rw [if_pos hn] at hp
        rcases List.mem_cons.mp hp with hp | hp
        · subst hp
          refine ⟨⟨pre2, acc ++ ('%' :: cs), rfl, rfl⟩,
            ⟨pre2 ++ acc, '%' :: cs, by simp, by rw [utf8Len_append]⟩, by simp⟩
        · have hup : utf8Len (pre2 ++ (acc ++ ['%'])) = utf8Len pre2 + utf8Len acc + 1 := by
            simp only [utf8Len_append, utf8Len, percent_utf8Size]
            omega
          have hind := ih (pre2 ++ (acc ++ ['%'])) [] (!rv) p
          rw [hup] at hind
          simp only [List.append_assoc, List.singleton_append, List.nil_append,
            List.append_nil, utf8Len, Nat.add_zero] at hind
          exact hind hp
      · have h0 : utf8Len pre2 = 0 ∧ utf8Len acc = 0 := by omega
        have hpre : pre2 = [] := utf8Len_eq_zero.mp h0.1
        have hac : acc = [] := utf8Len_eq_zero.mp h0.2
        subst hpre; subst hac
        rw [if_neg hn] at hp
        have hind := ih ['%'] [] (!rv) p
        simp only [List.singleton_append, List.nil_append, utf8Len, percent_utf8Size,
          Nat.add_zero] at hind
        simp only [List.nil_append]
        exact hind (by simpa using hp)
    · simp only [charIndicesAux, sliceOffsets] at hp
      rw [if_neg hc] at hp
      have hus : utf8Len (acc ++ [c]) = utf8Len acc + c.utf8Size := by
        simp [utf8Len_append, utf8Len]
      have hind := ih pre2 (acc ++ [c]) rv p
      rw [hus] at hind
      simp only [List.append_assoc, List.singleton_append] at hind
      rw [Nat.add_assoc] at hp
      exact hind hp

/-! ### Claim theorems -/

/-- Claim C1 (code evaluation at the failing input): contrary to the claim,
the scanner accepts a space or `=` inside a variable reference.  On the
repository's own test inputs (test `fails_to_parse_invalid_var_name` in
src/src/tests.rs) it emits a `Var` segment containing the offending character
and no error at all — indeed the error enum in src/src/lib.rs has no
`InvalidVariableName` variant. -/
theorem scan_accepts_space_and_eq_in_var_name :
    scanAll "Some %FOO BAR% here" =
      [.ok (.Substr "Some ".data), .ok (.Var "FOO BAR".data), .ok (.Substr " here".data)] ∧
    scanAll "Some %FOO=BAR% here" =
      [.ok (.Substr "Some ".data), .ok (.Var "FOO=BAR".data), .ok (.Substr " here".data)] := by
  decide

/-- Claim C2 counterexample: the input `"%%"` has an even number of `%`
delimiters and contains no space or `=` at all, the scan yields no error, yet
concatenating the emitted segments' underlying text does not reconstruct the
input: the empty variable reference is suppressed and its two delimiters are
lost. -/
theorem roundtrip_fails_on_empty_var :
    delimCount "%%".data % 2 = 0 ∧ (¬ ' ' ∈ "%%".data ∧ ¬ '=' ∈ "%%".data) ∧
    allOk (scanAll "%%") = true ∧ reconstruct (scanAll "%%") ≠ "%%".data := by
  decide

/-- Claim C2 (amended): for every input with an even number of `%` delimiters
the scan yields no error; if moreover no variable reference is empty (the
`okScan` condition), concatenating the underlying text of all emitted
segments — wrapping each variable name back in `%` markers and taking
literals verbatim — reconstructs the original input exactly. -/
theorem scan_roundtrip (s : String) :
    (delimCount s.data % 2 = 0 → allOk (scanAll s) = true) ∧
    (okScan false false s.data = true →
      allOk (scanAll s) = true ∧ reconstruct (scanAll s) = s.data) := by
  constructor
  · intro h
    rw [scanAll_eq_tokens]
    exact tokens_even_allOk s.data [] false (by simpa using h)
  · intro h
    rw [scanAll_eq_tokens]
    have hr := tokens_okScan s.data [] false (by simpa using h)
    simpa using hr

/-- Witness for `scan_roundtrip` at the concrete input `"foo%bar%"`. -/
theorem scan_roundtrip_witness :
    allOk (scanAll "foo%bar%") = true ∧
      reconstruct (scanAll "foo%bar%") = "foo%bar%".data :=
  ⟨(scan_roundtrip "foo%bar%").1 (by decide),
   ((scan_roundtrip "foo%bar%").2 (by decide)).2⟩

/-- Claim C3: the worked example of `expand_string_with_values` from the
repository tests holds, and in general, whenever the scan yields no error and
the lookup resolves every scanned variable, expansion succeeds with, for each
scanned segment in order, the literal text appended verbatim and each
variable replaced by the textual value the lookup returns for its name. -/
theorem expand_example_and_segmentwise :
    expand_string_with_values "This is a string with a %DRINK% and some %FOOD%."
        (fun nm => if nm = "DRINK".data then some "a cup of tea".data
                   else if nm = "FOOD".data then some "cookies".data else none)
      = .ok "This is a string with a a cup of tea and some cookies.".data ∧
    ∀ (s : String) (f : List Char → Option (List Char)),
      allOk (scanAll s) = true → varsResolved f (scanAll s) = true →
      expand_string_with_values s f = .ok (((scanAll s).map (segOut f)).flatten) := by
  constructor
  · decide
  · intro s f h1 h2
    have h := expandLoop_ok_of_resolved f (scanAll s) [] h1 h2
    simpa [expand_string_with_values] using h

/-- Witness for `expand_example_and_segmentwise` at a concrete input. -/
theorem expand_segmentwise_witness :
    expand_string_with_values "a%B%"
        (fun nm => if nm = "B".data then some "c".data else none)
      = .ok (((scanAll "a%B%").map
          (segOut (fun nm => if nm = "B".data then some "c".data else none))).flatten) :=
  expand_example_and_segmentwise.2 "a%B%"
    (fun nm => if nm = "B".data then some "c".data else none) (by decide) (by decide)

/-- Claim C4: if the lookup returns nothing for some scanned variable,
expansion returns `MissingVariable` carrying the name of the first such
variable in left-to-right order, and no output is returned to the caller; in
particular `"Some %FOO%"` with the always-empty lookup yields
`MissingVariable "FOO"` (repository test `reports_missing_variable`). -/
theorem expand_missing_variable :
    expand_string_with_values "Some %FOO%" (fun _ => none)
      = .error (.MissingVariable "FOO".data) ∧
    ∀ (s : String) (f : List Char → Option (List Char)) (v : List Char),
      firstMissingVar f (scanAll s) = some v →
      expand_string_with_values s f = .error (.MissingVariable v) := by
  constructor
  · decide
  · intro s f v hv
    have htail : errorsTailOnly (scanAll s) = true := by
      rw [scanAll_eq_tokens]
      exact tokens_errorsTailOnly s.data [] false
    have h := expandLoop_missing f (scanAll s) [] v htail hv
    simpa [expand_string_with_values] using h

/-- Witness for `expand_missing_variable`: the first unresolved variable (the
second one scanned) is the one reported. -/
theorem expand_missing_variable_witness :
    expand_string_with_values "A %X% B %Y%"
        (fun nm => if nm = "X".data then some "x".data else none)
      = .error (.MissingVariable "Y".data) :=
  expand_missing_variable.2 "A %X% B %Y%"
    (fun nm => if nm = "X".data then some "x".data else none) "Y".data (by decide)

/-- Claim C5: an input with an odd number of `%` delimiters (a variable
reference opened but never closed) scans to a sequence whose final item is
the scan error (`InvalidFormat` — the code's name for the specification's
`MalformedInput`), every item before it being an ordinary segment; and `"%"`
scans to exactly that single error item. -/
theorem malformed_on_odd_delims :
    scanAll "%" = [.error .InvalidFormat] ∧
    ∀ s : String, delimCount s.data % 2 = 1 →
      ∃ pre, scanAll s = pre ++ [.error .InvalidFormat] ∧ allOk pre = true := by
  constructor
  · decide
  · intro s h
    rw [scanAll_eq_tokens]
    exact tokens_odd_error s.data [] false (by simpa using h)

/-- Witness for `malformed_on_odd_delims` at the concrete input `"x%y"`. -/
theorem malformed_on_odd_delims_witness :
    ∃ pre, scanAll "x%y" = pre ++ [.error .InvalidFormat] ∧ allOk pre = true :=
  malformed_on_odd_delims.2 "x%y" (by decide)

/-- Claim C6: the scanner never emits an empty segment — every emitted
literal and variable has nonempty text; `"%foo%%bar%"` scans to exactly the
two variables and `"%%"` scans to no items at all. -/
theorem no_empty_segments :
    scanAll "%foo%%bar%" = [.ok (.Var "foo".data), .ok (.Var "bar".data)] ∧
    scanAll "%%" = [] ∧
    ∀ (s : String) (t : List Char),
      (.ok (.Substr t) ∈ scanAll s ∨ .ok (.Var t) ∈ scanAll s) → t ≠ [] := by
  refine ⟨by decide, by decide, ?_⟩
  intro s t hmem
  have hall := tokens_all_props s.data [] false (by simp)
  rw [← scanAll_eq_tokens, List.all_eq_true] at hall
  rcases hmem with hmem | hmem
  · have h := hall _ hmem
    simp [segNonEmptyNoDelim] at h
    exact h.1
  · have h := hall _ hmem
    simp [segNonEmptyNoDelim] at h
    exact h.1

/-- Witness for `no_empty_segments` at a concrete emitted segment. -/
theorem no_empty_segments_witness : "bar".data ≠ [] :=
  no_empty_segments.2.2 "foo%bar%" "bar".data (Or.inr (by decide))

/-- Claim C7: a string containing no `%` delimiter scans to exactly one
literal equal to the whole input, except the empty string which scans to no
items. -/
theorem no_delim_single_literal (s : String) (h : '%' ∉ s.data) :
    (s.data = [] → scanAll s = []) ∧ (s.data ≠ [] → scanAll s = [.ok (.Substr s.data)]) := by
  have ht := tokens_no_delim s.data [] h
  simp only [List.nil_append] at ht
  rw [scanAll_eq_tokens]
  exact ⟨fun he => by rw [ht, if_pos he], fun he => by rw [ht, if_neg he]⟩

/-- Witness for `no_delim_single_literal` at the concrete input `"abc"`. -/
theorem no_delim_single_literal_witness :
    scanAll "abc" = [.ok (.Substr "abc".data)] :=
  (no_delim_single_literal "abc" (by decide)).2 (by decide)

/-- Claim C8: termination is monotonic — once a call to `next` has returned
`none` or an error item, every subsequent pull returns `none`: the scanner
never emits another segment or error after terminating. -/
theorem next_terminal_monotone (st : ExpandableStringSplit)
    (h : (next st).1 = none ∨ ∃ e, (next st).1 = some (.error e)) :
    ∀ k, (pullN (next st).2 k).1 = none := by
  intro k
  exact (pullN_done k _ (next_terminal st h)).1

/-- Witness for `next_terminal_monotone`: after `"%"` returns its error,
later pulls yield `none`. -/
theorem next_terminal_monotone_witness :
    (pullN (next (split_expandable_string "%")).2 3).1 = none :=
  next_terminal_monotone (split_expandable_string "%")
    (Or.inr ⟨.InvalidFormat, by decide⟩) 3

/-- Claim C9: every byte-offset pair at which the scanner slices its source
(the token before a delimiter and the trailing token at end of input) is a
pair of UTF-8 character boundaries with start ≤ stop — for every input,
including ones with multi-byte characters, slicing is valid and never splits
a character. -/
theorem slices_at_char_boundaries (s : String) (p : Nat × Nat)
    (hp : p ∈ sliceOffsets s.data (charIndices s.data) 0 false) :
    IsCharBoundary s.data p.1 ∧ IsCharBoundary s.data p.2 ∧ p.1 ≤ p.2 := by
  have h := sliceOffsets_boundary s.data [] [] false p
    (by simpa [charIndices, utf8Len] using hp)
  simpa using h

/-- Witness for `slices_at_char_boundaries` on an input with a two-byte
character. -/
theorem slices_at_char_boundaries_witness :
    IsCharBoundary "é%a%".data 0 ∧ IsCharBoundary "é%a%".data 2 ∧ (0 : Nat) ≤ 2 := by
  have h := slices_at_char_boundaries "é%a%" (0, 2) (by decide)
  simpa using h

/-- Claim C10: the text of every emitted segment — literal or variable —
contains no `%` delimiter; consequently a successful expansion's output
contains `%` only if some substituted lookup value itself contains one. -/
theorem no_delim_in_segments (s : String) :
    (∀ t : List Char,
      (.ok (.Substr t) ∈ scanAll s ∨ .ok (.Var t) ∈ scanAll s) → '%' ∉ t) ∧
    ∀ (f : List Char → Option (List Char)) (out : List Char),
      expand_string_with_values s f = .ok out → '%' ∈ out →
      ∃ v val, .ok (.Var v) ∈ scanAll s ∧ f v = some val ∧ '%' ∈ val := by
  have hall := tokens_all_props s.data [] false (by simp)
  rw [← scanAll_eq_tokens, List.all_eq_true] at hall
  constructor
  · intro t hmem
    rcases hmem with hmem | hmem
    · have h := hall _ hmem
      simp [segNonEmptyNoDelim] at h
      exact h.2
    · have h := hall _ hmem
      simp [segNonEmptyNoDelim] at h
      exact h.2
  · intro f out hok hmem
    have hok' : expandLoop f (scanAll s) [] = .ok out := hok
    obtain ⟨h1, h2, h3⟩ := expandLoop_ok_inv f (scanAll s) [] out hok'
    rw [h3] at hmem
    simp only [List.nil_append] at hmem
    rw [List.mem_flatten] at hmem
    obtain ⟨l, hl, hmem'⟩ := hmem
    rw [List.mem_map] at hl
    obtain ⟨it, hit, rfl⟩ := hl
    cases it with
    | error e => simp [segOut] at hmem'
    | ok entry =>
      cases entry with
      | Substr t =>
        have h := hall _ hit
        simp [segNonEmptyNoDelim] at h
        exact absurd (by simpa [segOut] using hmem') h.2
      | Var v =>
        have hsome : (f v).isSome = true := by
          have h2' := h2
          simp only [varsResolved, List.all_eq_true] at h2'
          simpa using h2' _ hit
        obtain ⟨val, hval⟩ := Option.isSome_iff_exists.mp hsome
        refine ⟨v, val, hit, hval, ?_⟩
        simpa [segOut, hval] using hmem'

/-- Witness for `no_delim_in_segments`: a delimiter in the output comes from
a substituted value. -/
theorem no_delim_in_segments_witness :
    ∃ v val, .ok (.Var v) ∈ scanAll "a%B%"
      ∧ (fun nm => if nm = "B".data then some "x%y".data else none) v = some val
      ∧ '%' ∈ val :=
  (no_delim_in_segments "a%B%").2
    (fun nm => if nm = "B".data then some "x%y".data else none) "ax%y".data
    (by decide) (by decide)

end ExpandStr
